import Mathlib

/-
Verification of the redenv secret-vault engine.

The development shallowly embeds the TypeScript sources:
  * the AEAD codec and its textual wire format
    (packages/core crypto, mirrored by packages/cli/src/core/crypto.ts),
  * the versioned secret store (writeSecret, rollback),
  * the access-token system (issue, revoke, unwrap),
  * password rotation (change-password),
  * the client's bulk fetch-and-decrypt.

Byte strings are lists of naturals below 256 (Uint8Array cells); wire
strings are lists of characters.  The AES-GCM primitive itself is the Web
Crypto platform, not repository code, so it is abstracted as a structure
carrying the authenticated-encryption contract the repository relies on;
a small executable instance is used for concrete evaluations.  Plaintext
strings are modelled at the byte level: TextEncoder/TextDecoder form an
external UTF-8 bijection applied at the boundary.
-/

namespace Redenv

/-- Numeric value of one hexadecimal digit character, as accepted by the
JavaScript hex parsers (both lowercase and uppercase digits). -/
def hexDigitVal? (c : Char) : Option Nat :=
  if '0' ≤ c ∧ c ≤ '9' then some (c.toNat - 48)
  else if 'a' ≤ c ∧ c ≤ 'f' then some (c.toNat - 87)
  else if 'A' ≤ c ∧ c ≤ 'F' then some (c.toNat - 55)
  else none

/-- Lowercase hex digit for a nibble, as produced by Number.toString(16). -/
def nibbleToChar (n : Nat) : Char :=
  if n < 10 then Char.ofNat (48 + n) else Char.ofNat (87 + n)

/-- Two-character lowercase hex encoding of one byte:
b.toString(16).padStart(2, "0") for a Uint8Array cell. -/
def byteToHex (b : Nat) : List Char :=
  [nibbleToChar (b / 16), nibbleToChar (b % 16)]

/-- bufferToHex from the core crypto module: each byte becomes two
lowercase hex digits, concatenated. -/
def bufferToHex (bs : List Nat) : List Char :=
  (bs.map byteToHex).flatten

/-- Value stored for one two-character chunk by the core hexToBuffer:
parseInt(chunk, 16) written into a Uint8Array cell.  A leading valid digit
followed by an invalid one parses as the digit alone; a leading invalid
digit yields NaN, which the typed array stores as 0.  (The exotic
parseInt forms - whitespace, signs, a 0x marker - cannot arise from a
two-character chunk that starts with a hex digit and are only reachable
on malformed input inside a caught block, where the resulting bytes are
never observed.) -/
def parseHexChunk (c1 c2 : Char) : Nat :=
  match hexDigitVal? c1 with
  | none => 0
  | some a =>
    match hexDigitVal? c2 with
    | none => a
    | some b => 16 * a + b

/-- Consecutive two-character chunks of a string (a trailing lone
character yields no chunk). -/
def hexChunks : List Char → List (Char × Char)
  | c1 :: c2 :: rest => (c1, c2) :: hexChunks rest
  | _ => []

/-- hexToBuffer from the core crypto module.  new Uint8Array(hex.length/2)
throws a RangeError on an odd-length string (non-integer length), modelled
as none; otherwise each two-character chunk is parsed with parseInt. -/
def hexToBuffer? (hex : List Char) : Option (List Nat) :=
  if hex.length % 2 = 0 then
    some ((hexChunks hex).map (fun p => parseHexChunk p.1 p.2))
  else none

/-- hexToBuffer from the CLI crypto module, which is Buffer.from(hex,
"hex"): decode pairs of hex digits until a pair fails to parse, ignore a
trailing lone character, never throw. -/
def hexToBufferCli : List Char → List Nat
  | c1 :: c2 :: rest =>
    match hexDigitVal? c1, hexDigitVal? c2 with
    | some a, some b => (16 * a + b) :: hexToBufferCli rest
    | _, _ => []
  | _ => []

/-- String.prototype.split(".") on the character list: the separators are
removed and the (possibly empty) fields between them are returned; the
empty string yields one empty field. -/
def splitDot : List Char → List (List Char)
  | [] => [[]]
  | c :: rest =>
    if c = '.' then [] :: splitDot rest
    else
      match splitDot rest with
      | [] => [[c]]
      | h :: t => (c :: h) :: t

/-- UTF-8 bytes of an ASCII character list (TextEncoder on the hex and
wire strings handled by the engine, which are all ASCII). -/
def charsToBytes (cs : List Char) : List Nat :=
  cs.map Char.toNat

/-- TextDecoder applied to ASCII bytes. -/
def bytesToChars (bs : List Nat) : List Char :=
  bs.map Char.ofNat

/-- Contract of the AES-256-GCM primitive behind crypto.subtle, which is
platform code, not repository code.  enc key iv plaintext yields the
ciphertext-with-tag; dec inverts it and rejects anything unauthentic.
The fields record exactly what the repository relies on: decryption
inverts encryption under the same key and nonce, the ciphertext carries a
16-byte tag, anything shorter than a tag is rejected, and ciphertext
cells are bytes. -/
structure AEAD (Key : Type) where
  enc : Key → List Nat → List Nat → List Nat
  dec : Key → List Nat → List Nat → Option (List Nat)
  dec_enc : ∀ k iv m, dec k iv (enc k iv m) = some m
  enc_length : ∀ k iv m, (enc k iv m).length = m.length + 16
  dec_short : ∀ k iv c, c.length < 16 → dec k iv c = none
  enc_bytes : ∀ k iv m, (∀ b ∈ m, b < 256) → ∀ b ∈ enc k iv m, b < 256

/-- Failure kinds of the codec: the three throw sites of decrypt.  The
first two are format failures (malformed wire string), the third is an
authentication failure (wrong credential or corrupted data). -/
inductive CryptoError where
  | emptyInput
  | invalidFormat
  | decryptionFailed
deriving DecidableEq, Repr

instance {e a : Type} [DecidableEq e] [DecidableEq a] : DecidableEq (Except e a) := by
  intro x y
  cases x <;> cases y <;> first
    | (apply isFalse; intro hc; exact Except.noConfusion hc)
    | (rename_i u v
       rcases decEq u v with h | h
       · apply isFalse; intro hc; apply h; injection hc
       · subst h; exact isTrue rfl)

/-- encrypt from the core crypto module: a fresh random 12-byte nonce
(made an explicit argument here), AES-GCM, then hex(iv) "." hex(ct).  The
CLI crypto module's encrypt is character-for-character the same wire
construction. -/
def encrypt {K : Type} (A : AEAD K) (iv : List Nat) (data : List Nat) (key : K) :
    List Char :=
  bufferToHex iv ++ '.' :: bufferToHex (A.enc key iv data)

/-- Well-formedness of a wire string as checked by the core decrypt:
splitting on "." yields exactly two non-empty fields. -/
def wellFormedWire (s : List Char) : Prop :=
  (splitDot s).length = 2 ∧ (splitDot s).getD 0 [] ≠ [] ∧ (splitDot s).getD 1 [] ≠ []

instance (s : List Char) : Decidable (wellFormedWire s) := by
  unfold wellFormedWire; infer_instance

/-- decrypt from the core crypto module: reject the empty string, reject
a split that is not exactly two non-empty fields, then inside the try
block decode the two hex halves and run AES-GCM; any failure there is
reported as the decryption-failed error. -/
def decrypt {K : Type} (A : AEAD K) (encryptedString : List Char) (key : K) :
    Except CryptoError (List Nat) :=
  if encryptedString = [] then .error .emptyInput
  else if wellFormedWire encryptedString then
    match hexToBuffer? ((splitDot encryptedString).getD 0 []),
          hexToBuffer? ((splitDot encryptedString).getD 1 []) with
    | some iv, some ciphertext =>
      match A.dec key iv ciphertext with
      | some m => .ok m
      | none => .error .decryptionFailed
    | _, _ => .error .decryptionFailed
  else .error .invalidFormat

/-- decrypt from the CLI crypto module
(packages/cli/src/core/crypto.ts): only the field count of the dot-split
is checked before the try block; the hex halves are decoded with
Buffer.from(hex, "hex"), which never throws. -/
def decryptCli {K : Type} (A : AEAD K) (encryptedString : List Char) (key : K) :
    Except CryptoError (List Nat) :=
  if (splitDot encryptedString).length = 2 then
    match A.dec key (hexToBufferCli ((splitDot encryptedString).getD 0 []))
                    (hexToBufferCli ((splitDot encryptedString).getD 1 [])) with
    | some m => .ok m
    | none => .error .decryptionFailed
  else .error .invalidFormat

/-- Executable stand-in satisfying the AEAD contract, used to evaluate
the development on concrete inputs: the tag is sixteen copies of the key
byte appended to the plaintext. -/
def toyAEAD : AEAD Nat where
  enc k _iv m := m ++ List.replicate 16 (k % 256)
  dec k _iv c :=
    if 16 ≤ c.length ∧ c.drop (c.length - 16) = List.replicate 16 (k % 256) then
      some (c.take (c.length - 16))
    else none
  dec_enc := by
    intro k iv m
    have hlen : (m ++ List.replicate 16 (k % 256)).length = m.length + 16 := by
      simp
    simp only [hlen, Nat.add_sub_cancel]
    rw [List.take_left, List.drop_left]
    simp
  enc_length := by intro k iv m; simp
  dec_short := by
    intro k iv c h
    simp only []
    rw [if_neg]
    rintro ⟨hc, -⟩
    omega
  enc_bytes := by
    intro k iv m hm b hb
    rcases List.mem_append.mp hb with h | h
    · exact hm b h
    · have := List.eq_of_mem_replicate h
      subst this
      exact Nat.mod_lt _ (by omega)

/-! Round-trip facts about the hex codec and the dot split. -/

theorem hexDigitVal?_nibbleToChar : ∀ n < 16, hexDigitVal? (nibbleToChar n) = some n := by
  decide

theorem nibbleToChar_ne_dot : ∀ n < 16, nibbleToChar n ≠ '.' := by
  decide

theorem nibbleToChar_toNat_lt : ∀ n < 16, (nibbleToChar n).toNat < 256 := by
  decide

theorem bufferToHex_cons (b : Nat) (bs : List Nat) :
    bufferToHex (b :: bs) = nibbleToChar (b / 16) :: nibbleToChar (b % 16) :: bufferToHex bs := by
  simp [bufferToHex, byteToHex]

theorem bufferToHex_length (bs : List Nat) : (bufferToHex bs).length = 2 * bs.length := by
  induction bs with
  | nil => simp [bufferToHex]
  | cons b bs ih => rw [bufferToHex_cons]; simp [ih]; omega

theorem dot_not_mem_bufferToHex (bs : List Nat) (h : ∀ b ∈ bs, b < 256) :
    '.' ∉ bufferToHex bs := by
  induction bs with
  | nil => simp [bufferToHex]
  | cons b bs ih =>
    have hb : b < 256 := h b (List.mem_cons_self b bs)
    rw [bufferToHex_cons]
    intro hmem
    rcases List.mem_cons.mp hmem with h1 | hmem
    · exact nibbleToChar_ne_dot (b / 16) (by omega) h1.symm
    · rcases List.mem_cons.mp hmem with h2 | hmem
      · exact nibbleToChar_ne_dot (b % 16) (Nat.mod_lt _ (by omega)) h2.symm
      · exact ih (fun x hx => h x (List.mem_cons_of_mem b hx)) hmem

theorem parseHexChunk_byteToHex (b : Nat) (hb : b < 256) :
    parseHexChunk (nibbleToChar (b / 16)) (nibbleToChar (b % 16)) = b := by
  have h1 := hexDigitVal?_nibbleToChar (b / 16) (by omega)
  have h2 := hexDigitVal?_nibbleToChar (b % 16) (Nat.mod_lt _ (by omega))
  simp [parseHexChunk, h1, h2]
  omega

theorem hexChunks_bufferToHex (bs : List Nat) :
    hexChunks (bufferToHex bs) =
      bs.map (fun b => (nibbleToChar (b / 16), nibbleToChar (b % 16))) := by
  induction bs with
  | nil => simp [bufferToHex, hexChunks]
  | cons b bs ih => rw [bufferToHex_cons]; simp [hexChunks, ih]

theorem hexToBuffer?_bufferToHex (bs : List Nat) (h : ∀ b ∈ bs, b < 256) :
    hexToBuffer? (bufferToHex bs) = some bs := by
  unfold hexToBuffer?
  rw [if_pos (by rw [bufferToHex_length]; omega)]
  rw [hexChunks_bufferToHex, List.map_map]
  congr 1
  induction bs with
  | nil => simp
  | cons b bs ih =>
    simp only [List.map_cons, Function.comp_apply]
    rw [parseHexChunk_byteToHex b (h b (List.mem_cons_self b bs))]
    rw [ih (fun x hx => h x (List.mem_cons_of_mem b hx))]

theorem hexToBufferCli_bufferToHex (bs : List Nat) (h : ∀ b ∈ bs, b < 256) :
    hexToBufferCli (bufferToHex bs) = bs := by
  induction bs with
  | nil => simp [bufferToHex, hexToBufferCli]
  | cons b bs ih =>
    have hb : b < 256 := h b (List.mem_cons_self b bs)
    rw [bufferToHex_cons]
    unfold hexToBufferCli
    rw [hexDigitVal?_nibbleToChar (b / 16) (by omega),
        hexDigitVal?_nibbleToChar (b % 16) (Nat.mod_lt _ (by omega))]
    simp only []
    rw [ih (fun x hx => h x (List.mem_cons_of_mem b hx))]
    congr 1
    omega

theorem charsToBytes_bufferToHex_lt (bs : List Nat) (h : ∀ b ∈ bs, b < 256) :
    ∀ x ∈ charsToBytes (bufferToHex bs), x < 256 := by
  induction bs with
  | nil => simp [bufferToHex, charsToBytes]
  | cons b bs ih =>
    have hb : b < 256 := h b (List.mem_cons_self b bs)
    rw [bufferToHex_cons]
    intro x hx
    simp only [charsToBytes, List.map_cons, List.mem_cons] at hx
    rcases hx with h1 | h1 | h1
    · subst h1; exact nibbleToChar_toNat_lt (b / 16) (by omega)
    · subst h1; exact nibbleToChar_toNat_lt (b % 16) (Nat.mod_lt _ (by omega))
    · exact ih (fun y hy => h y (List.mem_cons_of_mem b hy)) x (by simpa [charsToBytes] using h1)

theorem bytesToChars_charsToBytes (cs : List Char) : bytesToChars (charsToBytes cs) = cs := by
  simp only [bytesToChars, charsToBytes, List.map_map]
  apply List.map_id''
  intro c
  exact Char.ofNat_toNat c

theorem splitDot_no_dot (a : List Char) (h : '.' ∉ a) : splitDot a = [a] := by
  induction a with
  | nil => rfl
  | cons c rest ih =>
    have hc : c ≠ '.' := by intro hc; exact h (hc ▸ List.mem_cons_self c rest)
    simp only [splitDot, if_neg hc, ih (fun hm => h (List.mem_cons_of_mem c hm))]

theorem splitDot_append_dot (a b : List Char) (h : '.' ∉ a) :
    splitDot (a ++ '.' :: b) = a :: splitDot b := by
  induction a with
  | nil => simp [splitDot]
  | cons c rest ih =>
    have hc : c ≠ '.' := by intro hc; exact h (hc ▸ List.mem_cons_self c rest)
    simp only [List.cons_append, splitDot, if_neg hc, List.append_eq,
      ih (fun hm => h (List.mem_cons_of_mem c hm))]

/-- Splitting the wire string produced by encrypt recovers the two hex
halves. -/
theorem splitDot_encrypt {K : Type} (A : AEAD K) (iv data : List Nat) (key : K)
    (hiv : ∀ b ∈ iv, b < 256) (hdata : ∀ b ∈ data, b < 256) :
    splitDot (encrypt A iv data key) =
      [bufferToHex iv, bufferToHex (A.enc key iv data)] := by
  unfold encrypt
  rw [splitDot_append_dot _ _ (dot_not_mem_bufferToHex iv hiv)]
  rw [splitDot_no_dot _ (dot_not_mem_bufferToHex _ (A.enc_bytes key iv data hdata))]

/-- Core codec round trip, proved once and reused: decrypting the wire
string built by encrypt under the same key returns the plaintext bytes. -/
theorem decrypt_encrypt_aux {K : Type} (A : AEAD K) (key : K) (iv data : List Nat)
    (hiv : ∀ b ∈ iv, b < 256) (hivne : iv ≠ []) (hdata : ∀ b ∈ data, b < 256) :
    decrypt A (encrypt A iv data key) key = .ok data := by
  have hsplit := splitDot_encrypt A iv data key hiv hdata
  have hivlen : (bufferToHex iv).length = 2 * iv.length := bufferToHex_length iv
  have hctlen : (bufferToHex (A.enc key iv data)).length = 2 * (A.enc key iv data).length :=
    bufferToHex_length _
  have henclen := A.enc_length key iv data
  have hivne' : bufferToHex iv ≠ [] := by
    intro hc
    apply hivne
    cases iv with
    | nil => rfl
    | cons b bs => rw [hc] at hivlen; simp at hivlen
  have hctne : bufferToHex (A.enc key iv data) ≠ [] := by
    intro hc
    have h0 : (bufferToHex (A.enc key iv data)).length = 0 := by rw [hc]; rfl
    rw [hctlen] at h0
    omega
  have hne : encrypt A iv data key ≠ [] := by
    unfold encrypt
    intro hc
    have := congrArg List.length hc
    simp at this
  have hwf : wellFormedWire (encrypt A iv data key) := by
    unfold wellFormedWire
    rw [hsplit]
    exact ⟨rfl, hivne', hctne⟩
  unfold decrypt
  rw [if_neg (by simpa using hne), if_pos hwf, hsplit]
  simp only [List.getD_cons_zero, List.getD_cons_succ,
    hexToBuffer?_bufferToHex iv hiv,
    hexToBuffer?_bufferToHex _ (A.enc_bytes key iv data hdata),
    A.dec_enc key iv data]

/-- CLI codec round trip: the CLI decrypt also inverts the shared wire
encoding. -/
theorem decryptCli_encrypt_aux {K : Type} (A : AEAD K) (key : K) (iv data : List Nat)
    (hiv : ∀ b ∈ iv, b < 256) (hdata : ∀ b ∈ data, b < 256) :
    decryptCli A (encrypt A iv data key) key = .ok data := by
  have hsplit := splitDot_encrypt A iv data key hiv hdata
  unfold decryptCli
  rw [hsplit]
  simp [hexToBufferCli_bufferToHex iv hiv,
    hexToBufferCli_bufferToHex _ (A.enc_bytes key iv data hdata),
    A.dec_enc key iv data]

/-- C1: for every plaintext byte string P, every AES-GCM key K and every
fresh nonce, decrypting the wire string produced by encrypt(P, K) with
the same key K returns exactly P. -/
theorem decrypt_encrypt_roundtrip {K : Type} (A : AEAD K) (key : K) (iv data : List Nat)
    (hiv : ∀ b ∈ iv, b < 256) (hivne : iv ≠ []) (hdata : ∀ b ∈ data, b < 256) :
    decrypt A (encrypt A iv data key) key = .ok data :=
  decrypt_encrypt_aux A key iv data hiv hivne hdata

/-- Concrete evaluation of the C1 round trip on the executable AEAD
instance. -/
theorem decrypt_encrypt_roundtrip_witness :
    decrypt toyAEAD (encrypt toyAEAD [0, 1, 2, 3, 4, 5, 6, 7, 8, 9, 10, 11] [104, 105] 7) 7 =
      .ok [104, 105] :=
  decrypt_encrypt_roundtrip toyAEAD 7 [0, 1, 2, 3, 4, 5, 6, 7, 8, 9, 10, 11] [104, 105]
    (by decide) (by decide) (by decide)

/-- C2 counterexample: the claim quantifies over both decrypt
implementations, but the CLI copy classifies the input "." - which does
not split into two non-empty fields, so the claim requires the
invalid-format kind - as a decryption failure. -/
theorem decryptCli_dot_counterexample :
    ¬ wellFormedWire ['.'] ∧ decryptCli toyAEAD ['.'] 0 = .error .decryptionFailed := by
  constructor
  · decide
  · rfl

/-- C2 (amended): the core codec decrypt fails with the format error
kinds exactly on inputs that are empty or do not split into two
non-empty dot-separated fields, and with the distinguishable
decryption-failed kind only on well-formed inputs; the CLI copy of
decrypt checks only the field count of the dot-split, so its
invalid-format error appears exactly when the split is not two fields,
and a two-field input (even with an empty field) yields success or the
decryption-failed kind. -/
theorem decrypt_error_kinds {K : Type} (A : AEAD K) (s : List Char) (key : K) :
    (s = [] → decrypt A s key = .error .emptyInput)
    ∧ (s ≠ [] → ¬ wellFormedWire s → decrypt A s key = .error .invalidFormat)
    ∧ (wellFormedWire s →
        decrypt A s key = .error .decryptionFailed ∨ ∃ m, decrypt A s key = .ok m)
    ∧ (∀ e, decrypt A s key = .error e → (e = .decryptionFailed ↔ wellFormedWire s))
    ∧ ((splitDot s).length ≠ 2 → decryptCli A s key = .error .invalidFormat)
    ∧ ((splitDot s).length = 2 →
        decryptCli A s key = .error .decryptionFailed ∨ ∃ m, decryptCli A s key = .ok m) := by
  have hwfnil : ¬ wellFormedWire [] := by decide
  have htry : ∀ hs : s ≠ [], ∀ hwf : wellFormedWire s,
      decrypt A s key = .error .decryptionFailed ∨ ∃ m, decrypt A s key = .ok m := by
    intro hs hwf
    unfold decrypt
    rw [if_neg hs, if_pos hwf]
    rcases h0 : hexToBuffer? ((splitDot s).getD 0 []) with _ | iv
    · left; rfl
    · rcases h1 : hexToBuffer? ((splitDot s).getD 1 []) with _ | ct
      · left; rfl
      · rcases hd : A.dec key iv ct with _ | m
        · left; simp [hd]
        · right; exact ⟨m, by simp [hd]⟩
  refine ⟨?_, ?_, ?_, ?_, ?_, ?_⟩
  · intro hs; simp [decrypt, hs]
  · intro hs hwf; simp [decrypt, hs, hwf]
  · intro hwf
    have hs : s ≠ [] := fun h => hwfnil (h ▸ hwf)
    exact htry hs hwf
  · intro e he
    by_cases hs : s = []
    · subst hs
      simp [decrypt] at he
      subst he
      simp [hwfnil]
    · by_cases hwf : wellFormedWire s
      · rcases htry hs hwf with herr | ⟨m, hok⟩
        · rw [he] at herr
          simp at herr
          subst herr
          simp [hwf]
        · rw [he] at hok
          simp at hok
      · simp [decrypt, hs, hwf] at he
        subst he
        simp [hwf]
  · intro h2; simp [decryptCli, h2]
  · intro h2
    unfold decryptCli
    rw [if_pos h2]
    rcases hd : A.dec key (hexToBufferCli ((splitDot s).getD 0 []))
        (hexToBufferCli ((splitDot s).getD 1 [])) with _ | m
    · left; rfl
    · right; exact ⟨m, rfl⟩

/-- Concrete evaluation of the amended C2 classification: a one-field
input is rejected as invalid format by the core decrypt. -/
theorem decrypt_error_kinds_witness :
    decrypt toyAEAD ['a', 'b'] 0 = .error .invalidFormat :=
  (decrypt_error_kinds toyAEAD ['a', 'b'] 0).2.1 (by decide) (by decide)

/-! Data model of the backing store. -/

/-- One entry of a secret key's version history, newest first
(packages/core types: version, value, user, createdAt). -/
structure SecretVersion where
  version : Nat
  value : List Char
  user : String
  createdAt : String
deriving DecidableEq, Repr

/-- One service- or ephemeral-token record inside the serviceTokens map
of the project's metadata hash.  Service tokens carry no expiresAt and
ephemeral is false; the ephemeral records written by the plugin loader
carry both extra properties. -/
structure TokenRecord where
  encryptedPEK : List Char
  salt : List Char
  name : String
  description : String
  createdAt : String
  expiresAt : Option Nat
  ephemeral : Bool
deriving DecidableEq, Repr

/-- The meta hash of one project.  fieldExpiries models the store-level
per-field time-to-live table of the backing store (no code in the
repository ever writes to it). -/
structure ProjectMeta where
  encryptedPEK : List Char
  salt : List Char
  historyLimit : Option Nat
  serviceTokens : List (String × TokenRecord)
  fieldExpiries : List (String × Nat)
deriving DecidableEq, Repr

/-- writeSecret error: the core throws a RedenvError with code
PROJECT_NOT_FOUND when the metadata hash is absent. -/
inductive WriteError where
  | projectNotFound
deriving DecidableEq, Repr

/-- Straight-line body of the core writeSecret after the metadata
null-check (packages/core writeSecret): read the current history (absent
or non-array means empty), take the head version or 0, prepend the new
encrypted version, and trim to the history limit (default 10, limit 0
disables trimming). -/
def writeSecretCore {K : Type} (A : AEAD K) (md : ProjectMeta)
    (currentHistory : Option (List SecretVersion)) (iv : List Nat)
    (newValue : List Nat) (pek : K) (user : String) (now : String) :
    List SecretVersion :=
  let history := currentHistory.getD []
  let lastVersion := (history.head?.map SecretVersion.version).getD 0
  let newVersion : SecretVersion :=
    ⟨lastVersion + 1, encrypt A iv newValue pek, user, now⟩
  let history' := newVersion :: history
  let limit := md.historyLimit.getD 10
  if 0 < limit then history'.take limit else history'

/-- writeSecret from packages/core: fails with PROJECT_NOT_FOUND when the
metadata hash is missing, otherwise stores the updated history computed
by the straight-line body.  The CLI's writeSecret
(packages/cli/src/utils/redis.ts lines 94-117) computes the identical
history update. -/
def writeSecret {K : Type} (A : AEAD K) (metadata : Option ProjectMeta)
    (currentHistory : Option (List SecretVersion)) (iv : List Nat)
    (newValue : List Nat) (pek : K) (user : String) (now : String) :
    Except WriteError (List SecretVersion) :=
  match metadata with
  | none => .error .projectNotFound
  | some md => .ok (writeSecretCore A md currentHistory iv newValue pek user now)

/-- Per-write inputs of a sequence of writes: the fresh nonce, the new
plaintext, the audit user and the timestamp. -/
structure WriteInput where
  iv : List Nat
  value : List Nat
  user : String
  now : String

/-- History of one secret key after n sequential writeSecret calls
starting from an absent key, the i-th write using inputs f i. -/
def afterNWrites {K : Type} (A : AEAD K) (md : ProjectMeta) (pek : K)
    (f : Nat → WriteInput) : Nat → List SecretVersion
  | 0 => []
  | n + 1 =>
    writeSecretCore A md (some (afterNWrites A md pek f n))
      (f n).iv (f n).value pek (f n).user (f n).now

theorem writeSecretCore_length {K : Type} (A : AEAD K) (md : ProjectMeta)
    (h : List SecretVersion) (iv newValue : List Nat) (pek : K) (user now : String) :
    (writeSecretCore A md (some h) iv newValue pek user now).length =
      if 0 < md.historyLimit.getD 10 then
        min (md.historyLimit.getD 10) (h.length + 1)
      else h.length + 1 := by
  unfold writeSecretCore
  by_cases hl : 0 < md.historyLimit.getD 10
  · rw [if_pos hl, if_pos hl]
    simp
  · rw [if_neg hl, if_neg hl]
    simp

theorem writeSecretCore_head {K : Type} (A : AEAD K) (md : ProjectMeta)
    (h : List SecretVersion) (iv newValue : List Nat) (pek : K) (user now : String) :
    (writeSecretCore A md (some h) iv newValue pek user now).head?.map SecretVersion.version =
      some ((h.head?.map SecretVersion.version).getD 0 + 1) := by
  unfold writeSecretCore
  by_cases hl : 0 < md.historyLimit.getD 10
  · rw [if_pos hl]
    rcases Nat.exists_eq_add_of_lt hl with ⟨l, hl'⟩
    rw [hl']
    simp [List.take_succ_cons]
  · rw [if_neg hl]
    simp

/-- Length of the history after n writes, in terms of the effective
limit (the stored limit, or the default 10 when absent). -/
theorem afterNWrites_length {K : Type} (A : AEAD K) (md : ProjectMeta) (pek : K)
    (f : Nat → WriteInput) (n : Nat) :
    (afterNWrites A md pek f n).length =
      if 0 < md.historyLimit.getD 10 then min n (md.historyLimit.getD 10) else n := by
  induction n with
  | zero => simp [afterNWrites]
  | succ n ih =>
    unfold afterNWrites
    rw [writeSecretCore_length, ih]
    by_cases hl : 0 < md.historyLimit.getD 10
    · rw [if_pos hl, if_pos hl, if_pos hl]
      omega
    · rw [if_neg hl, if_neg hl, if_neg hl]

/-- C3: after N sequential writes to one secret key with the project's
history limit set to L greater than 0, the stored version list has length
min N L; with the limit set to 0, the list has length N (no trimming). -/
theorem writeSecret_history_length {K : Type} (A : AEAD K) (md : ProjectMeta) (pek : K)
    (f : Nat → WriteInput) (n L : Nat) (hL : md.historyLimit = some L) :
    (0 < L → (afterNWrites A md pek f n).length = min n L)
    ∧ (L = 0 → (afterNWrites A md pek f n).length = n) := by
  constructor
  · intro hpos
    rw [afterNWrites_length, hL]
    simp [hpos]
  · intro h0
    subst h0
    rw [afterNWrites_length, hL]
    simp

/-- Concrete evaluation of C3: three writes under limit 2 keep two
entries; three writes under limit 0 keep three. -/
theorem writeSecret_history_length_witness :
    (afterNWrites toyAEAD ⟨[], [], some 2, [], []⟩ 7
        (fun i => ⟨[1], [i % 256], "u", "t"⟩) 3).length = min 3 2
    ∧ (afterNWrites toyAEAD ⟨[], [], some 0, [], []⟩ 7
        (fun i => ⟨[1], [i % 256], "u", "t"⟩) 3).length = 3 :=
  ⟨(writeSecret_history_length toyAEAD ⟨[], [], some 2, [], []⟩ 7
      (fun i => ⟨[1], [i % 256], "u", "t"⟩) 3 2 rfl).1 (by decide),
   (writeSecret_history_length toyAEAD ⟨[], [], some 0, [], []⟩ 7
      (fun i => ⟨[1], [i % 256], "u", "t"⟩) 3 0 rfl).2 rfl⟩

/-- C4: across sequential writes to one secret key the assigned version
numbers are exactly 1, 2, 3, ...: after any n+1 writes the head version is
n+1, for every project metadata (so independent of any trimming). -/
theorem writeSecret_versions_increment {K : Type} (A : AEAD K) (md : ProjectMeta) (pek : K)
    (f : Nat → WriteInput) (n : Nat) :
    (afterNWrites A md pek f (n + 1)).head?.map SecretVersion.version = some (n + 1) := by
  induction n with
  | zero =>
    unfold afterNWrites
    rw [writeSecretCore_head]
    rfl
  | succ n ih =>
    unfold afterNWrites
    rw [writeSecretCore_head, ih]
    rfl

/-- C10: when the project's metadata has no history-limit field at all,
writeSecret trims with the effective default limit 10: after n writes the
list has length min n 10, hence never more than 10 entries. -/
theorem writeSecret_default_limit_ten {K : Type} (A : AEAD K) (md : ProjectMeta) (pek : K)
    (f : Nat → WriteInput) (n : Nat) (hmd : md.historyLimit = none) :
    (afterNWrites A md pek f n).length = min n 10 := by
  rw [afterNWrites_length, hmd]
  simp

/-- Concrete evaluation of C10: twelve writes with no stored limit leave
ten entries. -/
theorem writeSecret_default_limit_ten_witness :
    (afterNWrites toyAEAD ⟨[], [], none, [], []⟩ 7
        (fun i => ⟨[1], [i % 256], "u", "t"⟩) 12).length = min 12 10 :=
  writeSecret_default_limit_ten toyAEAD ⟨[], [], none, [], []⟩ 7
    (fun i => ⟨[1], [i % 256], "u", "t"⟩) 12 rfl

/-! Rollback (packages/cli/src/commands/rollback.ts, the path where a
target version number is supplied). -/

/-- Failure outcomes of the rollback action: fewer than two stored
versions, target equal to the current head, target version not found, or
a decryption failure of the target's ciphertext. -/
inductive RollbackError where
  | noPreviousVersions
  | currentVersion
  | versionNotFound
  | decryptFailed (e : CryptoError)
deriving DecidableEq, Repr

/-- Core of the rollback action on one secret key's fetched history:
reject histories with fewer than two versions, reject the current head
version, locate the target version, decrypt its stored wire value with
the PEK, and hand the plaintext to writeSecret (prompts, spinners and the
confirmation step are interaction, not data flow). -/
def rollback {K : Type} (A : AEAD K) (md : ProjectMeta) (history : List SecretVersion)
    (targetVersionNumber : Nat) (pek : K) (iv : List Nat) (user now : String) :
    Except RollbackError (List SecretVersion) :=
  if history.length < 2 then .error .noPreviousVersions
  else if targetVersionNumber = (history.head?.map SecretVersion.version).getD 0 then
    .error .currentVersion
  else
    match history.find? (fun v => v.version == targetVersionNumber) with
    | none => .error .versionNotFound
    | some targetVersion =>
      match decrypt A targetVersion.value pek with
      | .error e => .error (.decryptFailed e)
      | .ok decryptedValue =>
        .ok (writeSecretCore A md (some history) iv decryptedValue pek user now)

/-- C5: when the history holds a version V distinct from the current
head whose ciphertext decrypts to plaintext P, rollback to V succeeds and
produces a new head whose version is the prior head's version plus one
and whose stored value is P re-encrypted (so it decrypts to exactly P),
while the prior history survives as the tail subject only to the normal
trim rule. -/
theorem rollback_creates_new_head {K : Type} (A : AEAD K) (md : ProjectMeta)
    (history : List SecretVersion) (tv : SecretVersion) (V : Nat) (P : List Nat)
    (pek : K) (iv : List Nat) (user now : String)
    (hlen : 2 ≤ history.length)
    (hfind : history.find? (fun v => v.version == V) = some tv)
    (hnothead : V ≠ (history.head?.map SecretVersion.version).getD 0)
    (hdec : decrypt A tv.value pek = .ok P)
    (hiv : ∀ b ∈ iv, b < 256) (hivne : iv ≠ []) (hP : ∀ b ∈ P, b < 256) :
    ∃ newHead,
      rollback A md history V pek iv user now =
        .ok (newHead ::
          (if 0 < md.historyLimit.getD 10 then history.take (md.historyLimit.getD 10 - 1)
           else history))
      ∧ newHead.version = (history.head?.map SecretVersion.version).getD 0 + 1
      ∧ decrypt A newHead.value pek = .ok P := by
  refine ⟨⟨(history.head?.map SecretVersion.version).getD 0 + 1,
            encrypt A iv P pek, user, now⟩, ?_, rfl, ?_⟩
  · unfold rollback
    rw [if_neg (by omega), if_neg hnothead, hfind]
    simp only [hdec]
    unfold writeSecretCore
    by_cases hl : 0 < md.historyLimit.getD 10
    · rw [if_pos hl, if_pos hl]
      rcases Nat.exists_eq_add_of_lt hl with ⟨l, hl'⟩
      rw [hl']
      simp [List.take_succ_cons]
    · rw [if_neg hl, if_neg hl]
      simp
  · exact decrypt_encrypt_aux A pek iv P hiv hivne hP

/-- Concrete evaluation of C5: a two-entry history (versions 2 and 1)
rolled back to version 1 yields a version-3 head carrying version 1's
plaintext. -/
theorem rollback_creates_new_head_witness :
    ∃ newHead,
      rollback toyAEAD ⟨[], [], none, [], []⟩
          [⟨2, encrypt toyAEAD [9] [20] 7, "u", "t2"⟩,
           ⟨1, encrypt toyAEAD [8] [10] 7, "u", "t1"⟩]
          1 7 [5] "u" "t3" =
        .ok (newHead ::
          (if 0 < (⟨[], [], none, [], []⟩ : ProjectMeta).historyLimit.getD 10 then
            [⟨2, encrypt toyAEAD [9] [20] 7, "u", "t2"⟩,
             ⟨1, encrypt toyAEAD [8] [10] 7, "u", "t1"⟩].take
              ((⟨[], [], none, [], []⟩ : ProjectMeta).historyLimit.getD 10 - 1)
           else
            [⟨2, encrypt toyAEAD [9] [20] 7, "u", "t2"⟩,
             ⟨1, encrypt toyAEAD [8] [10] 7, "u", "t1"⟩]))
      ∧ newHead.version =
          (([⟨2, encrypt toyAEAD [9] [20] 7, "u", "t2"⟩,
             ⟨1, encrypt toyAEAD [8] [10] 7, "u", "t1"⟩] :
              List SecretVersion).head?.map SecretVersion.version).getD 0 + 1
      ∧ decrypt toyAEAD newHead.value 7 = .ok [10] :=
  rollback_creates_new_head toyAEAD ⟨[], [], none, [], []⟩
    [⟨2, encrypt toyAEAD [9] [20] 7, "u", "t2"⟩,
     ⟨1, encrypt toyAEAD [8] [10] 7, "u", "t1"⟩]
    ⟨1, encrypt toyAEAD [8] [10] 7, "u", "t1"⟩ 1 [10] 7 [5] "u" "t3"
    (by decide) (by decide) (by decide)
    (decrypt_encrypt_aux toyAEAD 7 [8] [10] (by decide) (by decide) (by decide))
    (by decide) (by decide) (by decide)

/-! Access-token system: issuance, revocation, and the two unwrap paths
(token secret and master password). -/

/-- Property access serviceTokens[publicId] on the parsed token map
(object keys are unique, so the first match is the entry). -/
def lookupToken (toks : List (String × TokenRecord)) (id : String) : Option TokenRecord :=
  (toks.find? (fun p => decide (p.1 = id))).map Prod.snd

/-- Property assignment serviceTokens[publicId] = record: replace an
existing entry in place, otherwise append (JavaScript object insertion
order). -/
def setToken (toks : List (String × TokenRecord)) (id : String) (r : TokenRecord) :
    List (String × TokenRecord) :=
  if toks.any (fun p => decide (p.1 = id)) then
    toks.map (fun p => if p.1 = id then (id, r) else p)
  else toks ++ [(id, r)]

/-- Token-revoke action (packages/cli token.ts lines 282-290): delete
each selected id from the parsed map, then store the map back; only the
serviceTokens field of the metadata hash changes. -/
def revokeTokens (md : ProjectMeta) (ids : List String) : ProjectMeta :=
  { md with serviceTokens := md.serviceTokens.filter (fun p => !(decide (p.1 ∈ ids))) }

/-- Token-create storage step (packages/cli token.ts lines 85-111):
derive a wrapping key from the fresh secret and salt, encrypt the
exported PEK hex under it, and record the token under its public id;
only the serviceTokens field changes. -/
def issueServiceToken {K : Type} (A : AEAD K) (kdf : String → List Nat → K)
    (md : ProjectMeta) (pek : List Nat) (publicTokenId secretToken : String)
    (tokenSalt iv : List Nat) (name description createdAt : String) : ProjectMeta :=
  let tokenKey := kdf secretToken tokenSalt
  let exportedPEK := bufferToHex pek
  let encryptedPEK := encrypt A iv (charsToBytes exportedPEK) tokenKey
  { md with serviceTokens :=
      (setToken md.serviceTokens publicTokenId
        ⟨encryptedPEK, bufferToHex tokenSalt, name, description, createdAt, none, false⟩) }

/-- Failure outcomes of the unwrap paths. -/
inductive ClientError where
  | projectNotFound
  | invalidTokenId
  | decryptionFailed (e : CryptoError)
  | internalError
deriving DecidableEq, Repr

/-- Token unwrap path (client getPEK / Redenv._getPEK without its
process cache): look the public id up in the serviceTokens map, derive
the wrapping key from the presented secret and the token's salt, decrypt
the wrapped PEK and re-import the raw key from its hex form.  The key
derivation function is an explicit parameter (PBKDF2 is platform code);
being a function, it is deterministic as the spec requires. -/
def getPEK {K : Type} (A : AEAD K) (kdf : String → List Nat → K)
    (metadata : Option ProjectMeta) (tokenId token : String) :
    Except ClientError (List Nat) :=
  match metadata with
  | none => .error .projectNotFound
  | some md =>
    match lookupToken md.serviceTokens tokenId with
    | none => .error .invalidTokenId
    | some tokenInfo =>
      match hexToBuffer? tokenInfo.salt with
      | none => .error .internalError
      | some salt =>
        match decrypt A tokenInfo.encryptedPEK (kdf token salt) with
        | .error e => .error (.decryptionFailed e)
        | .ok decryptedPEKBytes =>
          match hexToBuffer? (bytesToChars decryptedPEKBytes) with
          | none => .error .internalError
          | some pek => .ok pek

/-- Master-password unwrap path (packages/cli keys.ts unlockProject,
without prompt and cache): reject missing or empty metadata fields,
derive the password key from the stored salt, decrypt the wrapped PEK
with the CLI codec and decode the raw key (Buffer.from hex decoding on
both). -/
def unlockProject {K : Type} (A : AEAD K) (kdf : String → List Nat → K)
    (metadata : Option ProjectMeta) (masterPassword : String) :
    Except ClientError (List Nat) :=
  match metadata with
  | none => .error .projectNotFound
  | some md =>
    if md.encryptedPEK = [] ∨ md.salt = [] then .error .projectNotFound
    else
      match decryptCli A md.encryptedPEK (kdf masterPassword (hexToBufferCli md.salt)) with
      | .error e => .error (.decryptionFailed e)
      | .ok decryptedPEKBytes => .ok (hexToBufferCli (bytesToChars decryptedPEKBytes))

theorem lookupToken_filter_revoked (toks : List (String × TokenRecord))
    (ids : List String) (id : String) (hid : id ∈ ids) :
    lookupToken (toks.filter (fun p => !(decide (p.1 ∈ ids)))) id = none := by
  induction toks with
  | nil => rfl
  | cons p toks ih =>
    rw [List.filter_cons]
    by_cases hp : p.1 ∈ ids
    · rw [if_neg (by simp [hp])]
      exact ih
    · rw [if_pos (by simp [hp])]
      unfold lookupToken at ih ⊢
      rw [List.find?_cons_of_neg]
      · exact ih
      · simp only [decide_eq_true_eq]
        intro hc
        exact hp (hc ▸ hid)

theorem lookupToken_filter_other (toks : List (String × TokenRecord))
    (ids : List String) (id : String) (hid : id ∉ ids) :
    lookupToken (toks.filter (fun p => !(decide (p.1 ∈ ids)))) id = lookupToken toks id := by
  induction toks with
  | nil => rfl
  | cons p toks ih =>
    rw [List.filter_cons]
    by_cases hp : p.1 ∈ ids
    · have hne : ¬ (p.1 = id) := by
        intro hc
        exact hid (hc ▸ hp)
      rw [if_neg (by simp [hp])]
      unfold lookupToken at ih ⊢
      rw [List.find?_cons_of_neg]
      · exact ih
      · simpa using hne
    · rw [if_pos (by simp [hp])]
      by_cases heq : p.1 = id
      · unfold lookupToken
        rw [List.find?_cons_of_pos _ (by simpa using heq),
          List.find?_cons_of_pos _ (by simpa using heq)]
      · unfold lookupToken at ih ⊢
        rw [List.find?_cons_of_neg _ (by simpa using heq),
          List.find?_cons_of_neg _ (by simpa using heq)]
        exact ih

/-- C6: revoking a public id removes its wrapped PEK copy, so every
subsequent token unwrap with that id fails with the invalid-token error,
while the master-password unwrap and the unwrap of every other token id
behave exactly as before the revocation. -/
theorem revoke_disables_only_that_token {K : Type} (A : AEAD K)
    (kdf : String → List Nat → K) (md : ProjectMeta) (revokedId : String) :
    (∀ secret, getPEK A kdf (some (revokeTokens md [revokedId])) revokedId secret =
      .error .invalidTokenId)
    ∧ (∀ pw, unlockProject A kdf (some (revokeTokens md [revokedId])) pw =
        unlockProject A kdf (some md) pw)
    ∧ (∀ otherId secret, otherId ≠ revokedId →
        getPEK A kdf (some (revokeTokens md [revokedId])) otherId secret =
          getPEK A kdf (some md) otherId secret) := by
  refine ⟨?_, ?_, ?_⟩
  · intro secret
    simp only [getPEK, revokeTokens]
    rw [lookupToken_filter_revoked _ _ _ (List.mem_singleton.mpr rfl)]
  · intro pw
    unfold unlockProject revokeTokens
    rfl
  · intro otherId secret hne
    simp only [getPEK, revokeTokens]
    rw [lookupToken_filter_other _ _ _ (by simpa using hne)]

/-- Concrete C6 scenario: two issued tokens, one revoked; the revoked id
fails, the master password and the surviving token still unwrap the
PEK. -/
theorem revoke_disables_only_that_token_witness :
    getPEK toyAEAD (fun s salt => salt.length + s.length)
        (some (revokeTokens
          (issueServiceToken toyAEAD (fun s salt => salt.length + s.length)
            (issueServiceToken toyAEAD (fun s salt => salt.length + s.length)
              ⟨encrypt toyAEAD [3] (charsToBytes (bufferToHex [17])) 4, bufferToHex [7, 7],
                none, [], []⟩
              [17] "tokA" "secA" [1] [4] "A" "d" "c")
            [17] "tokB" "secretB" [2, 2] [5] "B" "d" "c")
          ["tokA"])) "tokA" "secA" = .error .invalidTokenId
    ∧ getPEK toyAEAD (fun s salt => salt.length + s.length)
        (some (revokeTokens
          (issueServiceToken toyAEAD (fun s salt => salt.length + s.length)
            (issueServiceToken toyAEAD (fun s salt => salt.length + s.length)
              ⟨encrypt toyAEAD [3] (charsToBytes (bufferToHex [17])) 4, bufferToHex [7, 7],
                none, [], []⟩
              [17] "tokA" "secA" [1] [4] "A" "d" "c")
            [17] "tokB" "secretB" [2, 2] [5] "B" "d" "c")
          ["tokA"])) "tokB" "secretB" = .ok [17]
    ∧ unlockProject toyAEAD (fun s salt => salt.length + s.length)
        (some (revokeTokens
          (issueServiceToken toyAEAD (fun s salt => salt.length + s.length)
            (issueServiceToken toyAEAD (fun s salt => salt.length + s.length)
              ⟨encrypt toyAEAD [3] (charsToBytes (bufferToHex [17])) 4, bufferToHex [7, 7],
                none, [], []⟩
              [17] "tokA" "secA" [1] [4] "A" "d" "c")
            [17] "tokB" "secretB" [2, 2] [5] "B" "d" "c")
          ["tokA"])) "pw" = .ok [17] := by
  refine ⟨(revoke_disables_only_that_token toyAEAD (fun s salt => salt.length + s.length)
      _ "tokA").1 "secA", ?_, ?_⟩
  · rw [(revoke_disables_only_that_token toyAEAD (fun s salt => salt.length + s.length)
      _ "tokA").2.2 "tokB" "secretB" (by decide)]
    rfl
  · rw [(revoke_disables_only_that_token toyAEAD (fun s salt => salt.length + s.length)
      _ "tokA").2.1 "pw"]
    rfl

theorem hexDigitVal?_lt (c : Char) (a : Nat) (h : hexDigitVal? c = some a) : a < 16 := by
  unfold hexDigitVal? at h
  split_ifs at h with h1 h2 h3
  · have h9 : c.toNat ≤ 57 := h1.2
    have := Option.some.inj h
    omega
  · have hf : c.toNat ≤ 102 := h2.2
    have := Option.some.inj h
    omega
  · have hf : c.toNat ≤ 70 := h3.2
    have := Option.some.inj h
    omega

theorem hexToBufferCli_bytes_lt : ∀ (s : List Char), ∀ b ∈ hexToBufferCli s, b < 256
  | [] => by simp [hexToBufferCli]
  | [c] => by simp [hexToBufferCli]
  | c1 :: c2 :: rest => by
    intro x hx
    unfold hexToBufferCli at hx
    rcases ha : hexDigitVal? c1 with _ | a
    · simp [ha] at hx
    · rcases hb : hexDigitVal? c2 with _ | b
      · simp [ha, hb] at hx
      · simp only [ha, hb, List.mem_cons] at hx
        rcases hx with h1 | h1
        · have h16a := hexDigitVal?_lt c1 a ha
          have h16b := hexDigitVal?_lt c2 b hb
          omega
        · exact hexToBufferCli_bytes_lt rest x h1

/-! Password rotation (the change-password command). -/

/-- Failure outcomes of change-password. -/
inductive ChangePasswordError where
  | missingMetadata
  | decryptionFailed (e : CryptoError)
deriving DecidableEq, Repr

/-- change-password action (CLI change-password command, data flow
only): verify the current password by unwrapping the stored PEK with a
key derived from it and the stored salt, then re-encrypt the same PEK
hex under a key derived from the new password and that same stored salt,
and write back only the encryptedPEK field of the metadata hash. -/
def changePassword {K : Type} (A : AEAD K) (kdf : String → List Nat → K)
    (metadata : Option ProjectMeta) (currentMasterPassword newMasterPassword : String)
    (iv : List Nat) : Except ChangePasswordError ProjectMeta :=
  match metadata with
  | none => .error .missingMetadata
  | some md =>
    if md.encryptedPEK = [] ∨ md.salt = [] then .error .missingMetadata
    else
      match decryptCli A md.encryptedPEK
          (kdf currentMasterPassword (hexToBufferCli md.salt)) with
      | .error e => .error (.decryptionFailed e)
      | .ok decryptedPEKBytes =>
        let pek := hexToBufferCli (bytesToChars decryptedPEKBytes)
        .ok { md with encryptedPEK :=
          (encrypt A iv (charsToBytes (bufferToHex pek))
            (kdf newMasterPassword (hexToBufferCli md.salt))) }

/-- Key-derivation stand-in for the change-password scenario; it
distinguishes salts of different lengths and passwords of different
lengths. -/
def lenKdf : String → List Nat → Nat :=
  fun s salt => salt.length * 100 + s.length

/-- Concrete project metadata for the change-password scenario: a PEK of
one byte 17 wrapped under the key derived from the password "old" and
the stored two-byte salt. -/
def mdChangeExample : ProjectMeta :=
  ⟨encrypt toyAEAD [3] (charsToBytes (bufferToHex [17])) (lenKdf "old" [7, 7]),
    bufferToHex [7, 7], none, [], []⟩

/-- C7 counterexample: the claim requires the re-wrap to use a freshly
generated salt, but change-password derives the new wrapping key from
the project's existing stored salt: after rotation the stored salt is
unchanged, the rotated blob is exactly the wrap under the old-salt key,
it unwraps under the key derived from the new password and the old
stored salt, and the key derived from a fresh 16-byte salt fails to
unwrap it. -/
theorem changePassword_fresh_salt_counterexample :
    (changePassword toyAEAD lenKdf (some mdChangeExample) "old" "newpass" [3]).map
        ProjectMeta.salt = .ok mdChangeExample.salt
    ∧ (changePassword toyAEAD lenKdf (some mdChangeExample) "old" "newpass" [3]).map
        ProjectMeta.encryptedPEK =
      .ok (encrypt toyAEAD [3] (charsToBytes (bufferToHex [17]))
        (lenKdf "newpass" (hexToBufferCli mdChangeExample.salt)))
    ∧ (changePassword toyAEAD lenKdf (some mdChangeExample) "old" "newpass" [3]).map
        (fun md' => decryptCli toyAEAD md'.encryptedPEK
          (lenKdf "newpass" [1, 2, 3, 4, 5, 6, 7, 8, 9, 10, 11, 12, 13, 14, 15, 16])) =
      .ok (.error .decryptionFailed) := by
  refine ⟨by decide, by decide, by decide⟩

/-- C7 (amended): change-password unwraps the PEK under the old
password, re-wraps the same PEK bytes under a key derived from the new
password and the project's existing stored salt (the salt is reused, not
freshly generated, and stays unchanged), and leaves every token-wrapped
copy untouched, so every token unwrap behaves exactly as before. -/
theorem changePassword_rotates_wrap {K : Type} (A : AEAD K) (kdf : String → List Nat → K)
    (md : ProjectMeta) (curPw newPw : String) (iv : List Nat) (pekBytes : List Nat)
    (henc : ¬(md.encryptedPEK = [] ∨ md.salt = []))
    (hdec : decryptCli A md.encryptedPEK (kdf curPw (hexToBufferCli md.salt)) = .ok pekBytes)
    (hiv : ∀ b ∈ iv, b < 256) :
    ∃ md',
      changePassword A kdf (some md) curPw newPw iv = .ok md'
      ∧ md'.salt = md.salt
      ∧ md'.serviceTokens = md.serviceTokens
      ∧ md'.encryptedPEK =
          encrypt A iv (charsToBytes (bufferToHex (hexToBufferCli (bytesToChars pekBytes))))
            (kdf newPw (hexToBufferCli md.salt))
      ∧ decryptCli A md'.encryptedPEK (kdf newPw (hexToBufferCli md.salt)) =
          .ok (charsToBytes (bufferToHex (hexToBufferCli (bytesToChars pekBytes))))
      ∧ (∀ id s, getPEK A kdf (some md') id s = getPEK A kdf (some md) id s) := by
  refine ⟨{ md with encryptedPEK :=
      (encrypt A iv (charsToBytes (bufferToHex (hexToBufferCli (bytesToChars pekBytes))))
        (kdf newPw (hexToBufferCli md.salt))) }, ?_, rfl, rfl, rfl, ?_, ?_⟩
  · simp only [changePassword]
    rw [if_neg henc]
    simp only [hdec]
  · exact decryptCli_encrypt_aux A (kdf newPw (hexToBufferCli md.salt)) iv
      (charsToBytes (bufferToHex (hexToBufferCli (bytesToChars pekBytes)))) hiv
      (charsToBytes_bufferToHex_lt _ (hexToBufferCli_bytes_lt _))
  · intro id s
    simp only [getPEK]

/-- Concrete evaluation of the amended C7: rotating the example project
from password "old" to "newpass" succeeds, keeps the salt, and the
rotated blob unwraps under the new password with the old salt. -/
theorem changePassword_rotates_wrap_witness :
    ∃ md',
      changePassword toyAEAD lenKdf (some mdChangeExample) "old" "newpass" [3] = .ok md'
      ∧ md'.salt = mdChangeExample.salt
      ∧ md'.serviceTokens = mdChangeExample.serviceTokens
      ∧ md'.encryptedPEK =
          encrypt toyAEAD [3]
            (charsToBytes (bufferToHex (hexToBufferCli
              (bytesToChars (charsToBytes (bufferToHex [17]))))))
            (lenKdf "newpass" (hexToBufferCli mdChangeExample.salt))
      ∧ decryptCli toyAEAD md'.encryptedPEK (lenKdf "newpass" (hexToBufferCli mdChangeExample.salt)) =
          .ok (charsToBytes (bufferToHex (hexToBufferCli
            (bytesToChars (charsToBytes (bufferToHex [17]))))))
      ∧ (∀ id s, getPEK toyAEAD lenKdf (some md') id s =
          getPEK toyAEAD lenKdf (some mdChangeExample) id s) :=
  changePassword_rotates_wrap toyAEAD lenKdf mdChangeExample "old" "newpass" [3]
    (charsToBytes (bufferToHex [17])) (by decide) (by decide) (by decide)

/-! Ephemeral tokens (packages/cli/src/core/plugins.ts). -/

theorem lookupToken_cons_self (p : String × TokenRecord) (l : List (String × TokenRecord))
    (id : String) (h : p.1 = id) : lookupToken (p :: l) id = some p.2 := by
  unfold lookupToken
  rw [List.find?_cons_of_pos _ (by simpa using h)]
  rfl

theorem lookupToken_cons_ne (p : String × TokenRecord) (l : List (String × TokenRecord))
    (id : String) (h : ¬ p.1 = id) : lookupToken (p :: l) id = lookupToken l id := by
  unfold lookupToken
  rw [List.find?_cons_of_neg _ (by simpa using h)]

theorem lookupToken_setToken (toks : List (String × TokenRecord)) (id : String)
    (r : TokenRecord) : lookupToken (setToken toks id r) id = some r := by
  unfold setToken
  by_cases hany : toks.any (fun p => decide (p.1 = id)) = true
  · rw [if_pos hany]
    induction toks with
    | nil => simp at hany
    | cons p toks ih =>
      by_cases hp : p.1 = id
      · simp only [List.map_cons, if_pos hp]
        exact lookupToken_cons_self _ _ _ rfl
      · simp only [List.map_cons, if_neg hp]
        rw [lookupToken_cons_ne _ _ _ hp]
        exact ih (by simpa [hp] using hany)
  · rw [if_neg hany]
    induction toks with
    | nil => exact lookupToken_cons_self _ _ _ rfl
    | cons p toks ih =>
      have hp : ¬ p.1 = id := by
        intro hc
        exact hany (by simp [hc])
      rw [List.cons_append, lookupToken_cons_ne _ _ _ hp]
      exact ih (by intro hc; exact hany (by simp [List.any_cons]; right; simpa using hc))

/-- Fixed fallback expiry recorded inside an ephemeral token record:
Date.now() + 60 * 60 * 6 * 1000. -/
def sixHoursMs : Nat := 60 * 60 * 6 * 1000

/-- Storage effect of getEphemeralToken (plugins.ts lines 139-172): the
token is wrapped and recorded inside the serviceTokens map exactly like
a service token, with an expiresAt timestamp and an ephemeral flag in
the record itself; the single store operation performed is the hset of
the serviceTokens field, so the store-level field-expiry table is never
touched. -/
def getEphemeralTokenStore {K : Type} (A : AEAD K) (kdf : String → List Nat → K)
    (md : ProjectMeta) (pek : List Nat) (tokenId tokenSecret : String)
    (salt iv : List Nat) (pluginName nowIso : String) (nowMs : Nat) : ProjectMeta :=
  let tokenKey := kdf tokenSecret salt
  let exportedPEK := bufferToHex pek
  let encryptedPEK := encrypt A iv (charsToBytes exportedPEK) tokenKey
  { md with serviceTokens :=
      (setToken md.serviceTokens tokenId
        ⟨encryptedPEK, bufferToHex salt, "Ephemeral (" ++ pluginName ++ ")",
          "Temporary access token for plugin session", nowIso,
          some (nowMs + sixHoursMs), true⟩) }

/-- Signal-handler cleanup of one registered ephemeral token (plugins.ts
lines 34-47): if the id is still present, delete it from the map and
store the map back. -/
def cleanupToken (md : ProjectMeta) (tokenId : String) : ProjectMeta :=
  match lookupToken md.serviceTokens tokenId with
  | some _ =>
    { md with serviceTokens := md.serviceTokens.filter (fun p => !(decide (p.1 ∈ [tokenId]))) }
  | none => md

/-- Whether the store-level expiry of a metadata hash field has passed. -/
def fieldExpired (md : ProjectMeta) (field : String) (t : Nat) : Bool :=
  match (md.fieldExpiries.find? (fun p => decide (p.1 = field))).map Prod.snd with
  | some deadline => decide (deadline ≤ t)
  | none => false

/-- Modelled from the spec: the backing store reclaims a hash field on
its own once that field's store-level expiry deadline has passed (the
mechanism the spec says ephemeral tokens rely on).  The token data lives
in the serviceTokens field, so at time t that field's content survives
exactly when no store-level expiry for it has passed. -/
def purgeExpiredFields (md : ProjectMeta) (t : Nat) : ProjectMeta :=
  { md with serviceTokens :=
      if fieldExpired md "serviceTokens" t then [] else md.serviceTokens }

/-- Concrete ephemeral issuance used for evaluation: a one-byte PEK
wrapped at time 1000 into an empty project. -/
def ephemeralStoredExample : ProjectMeta :=
  getEphemeralTokenStore toyAEAD lenKdf ⟨[], [], none, [], []⟩ [17] "tokE" "sec" [2] [3]
    "plug" "t0" 1000

/-- C8 counterexample: no store-level field expiry is set by ephemeral
issuance (the expiry table stays empty), so strictly after the token's
recorded time-to-live the entry is still present in the backing store
even though the cleanup list was never drained - the claim that it
disappears from the store on its own is false on this input. -/
theorem ephemeral_no_store_expiry_counterexample :
    ephemeralStoredExample.fieldExpiries = []
    ∧ (lookupToken ephemeralStoredExample.serviceTokens "tokE").map TokenRecord.expiresAt =
        some (some (1000 + sixHoursMs))
    ∧ (purgeExpiredFields ephemeralStoredExample (1000 + sixHoursMs + 1)).serviceTokens =
        ephemeralStoredExample.serviceTokens
    ∧ (lookupToken (purgeExpiredFields ephemeralStoredExample
        (1000 + sixHoursMs + 1)).serviceTokens "tokE").isSome = true := by
  refine ⟨rfl, by decide, rfl, by decide⟩

/-- C8 (amended): getEphemeralToken stores the token like a service
token inside the serviceTokens map, with the fixed six-hour expiresAt
timestamp and the ephemeral flag recorded inside the token record, and
registers the id for the process-local cleanup, which removes the entry
when it runs; it sets no store-level field expiry, so the stored entry
survives the passage of any amount of time in the backing store. -/
theorem ephemeral_token_storage {K : Type} (A : AEAD K) (kdf : String → List Nat → K)
    (md : ProjectMeta) (pek : List Nat) (tokenId tokenSecret : String)
    (salt iv : List Nat) (pluginName nowIso : String) (nowMs : Nat) :
    lookupToken (getEphemeralTokenStore A kdf md pek tokenId tokenSecret salt iv
        pluginName nowIso nowMs).serviceTokens tokenId =
      some ⟨encrypt A iv (charsToBytes (bufferToHex pek)) (kdf tokenSecret salt),
        bufferToHex salt, "Ephemeral (" ++ pluginName ++ ")",
        "Temporary access token for plugin session", nowIso,
        some (nowMs + sixHoursMs), true⟩
    ∧ (getEphemeralTokenStore A kdf md pek tokenId tokenSecret salt iv
        pluginName nowIso nowMs).fieldExpiries = md.fieldExpiries
    ∧ (md.fieldExpiries = [] → ∀ t,
        (purgeExpiredFields (getEphemeralTokenStore A kdf md pek tokenId tokenSecret salt iv
          pluginName nowIso nowMs) t).serviceTokens =
        (getEphemeralTokenStore A kdf md pek tokenId tokenSecret salt iv
          pluginName nowIso nowMs).serviceTokens)
    ∧ lookupToken (cleanupToken (getEphemeralTokenStore A kdf md pek tokenId tokenSecret
        salt iv pluginName nowIso nowMs) tokenId).serviceTokens tokenId = none := by
  refine ⟨?_, rfl, ?_, ?_⟩
  · exact lookupToken_setToken _ _ _
  · intro hfe t
    unfold purgeExpiredFields fieldExpired getEphemeralTokenStore
    rw [hfe]
    rfl
  · unfold cleanupToken
    rcases hl : lookupToken (getEphemeralTokenStore A kdf md pek tokenId tokenSecret salt iv
        pluginName nowIso nowMs).serviceTokens tokenId with _ | r
    · exact hl
    · exact lookupToken_filter_revoked _ _ _ (List.mem_singleton.mpr rfl)

/-- Concrete evaluation of the amended C8 on the example issuance. -/
theorem ephemeral_token_storage_witness :
    lookupToken ephemeralStoredExample.serviceTokens "tokE" =
      some ⟨encrypt toyAEAD [3] (charsToBytes (bufferToHex [17])) (lenKdf "sec" [2]),
        bufferToHex [2], "Ephemeral (" ++ "plug" ++ ")",
        "Temporary access token for plugin session", "t0",
        some (1000 + sixHoursMs), true⟩
    ∧ ephemeralStoredExample.fieldExpiries = ([] : List (String × Nat))
    ∧ (purgeExpiredFields ephemeralStoredExample 99999999999).serviceTokens =
        ephemeralStoredExample.serviceTokens
    ∧ lookupToken (cleanupToken ephemeralStoredExample "tokE").serviceTokens "tokE" = none := by
  have h := ephemeral_token_storage toyAEAD lenKdf ⟨[], [], none, [], []⟩ [17] "tokE" "sec"
    [2] [3] "plug" "t0" 1000
  exact ⟨h.1, h.2.1, h.2.2.1 rfl 99999999999, h.2.2.2⟩

/-! Bulk fetch-and-decrypt (packages/client/src/utils fetchAndDecrypt;
Redenv._fetchAndDecryptAll is the same loop). -/

/-- Hash-field access on a fetched JavaScript object, keyed by field
name (object keys are unique). -/
def lookupField {α : Type} (m : List (String × α)) (k : String) : Option α :=
  (m.find? (fun p => decide (p.1 = k))).map Prod.snd

/-- Per-entry task of the bulk fetch: a field whose value is not a
non-empty array contributes nothing; otherwise the head version is
decrypted, a failure is caught (logged) and contributes nothing, and a
success contributes the key with the decrypted value. -/
def decryptEntry {K : Type} (A : AEAD K) (pek : K)
    (e : String × Option (List SecretVersion)) : Option (String × List Nat) :=
  match e.2 with
  | some (v :: _) =>
    match decrypt A v.value pek with
    | .ok decryptedValue => some (e.1, decryptedValue)
    | .error _ => none
  | _ => none

/-- fetchAndDecrypt: a null environment hash yields the empty secret
map; otherwise every field is processed by its own independent task and
the non-null results are collected in order (Promise.all preserves
order). -/
def fetchAndDecrypt {K : Type} (A : AEAD K) (pek : K)
    (versionedSecrets : Option (List (String × Option (List SecretVersion)))) :
    List (String × List Nat) :=
  match versionedSecrets with
  | none => []
  | some entries => entries.filterMap (decryptEntry A pek)

theorem lookupField_cons_self {α : Type} (p : String × α) (l : List (String × α))
    (k : String) (h : p.1 = k) : lookupField (p :: l) k = some p.2 := by
  unfold lookupField
  rw [List.find?_cons_of_pos _ (by simpa using h)]
  rfl

theorem lookupField_cons_ne {α : Type} (p : String × α) (l : List (String × α))
    (k : String) (h : ¬ p.1 = k) : lookupField (p :: l) k = lookupField l k := by
  unfold lookupField
  rw [List.find?_cons_of_neg _ (by simpa using h)]

theorem decryptEntry_key {K : Type} (A : AEAD K) (pek : K)
    (e : String × Option (List SecretVersion)) (b : String × List Nat)
    (h : decryptEntry A pek e = some b) : b.1 = e.1 := by
  unfold decryptEntry at h
  split at h
  · split at h
    · rw [← Option.some.inj h]
    · exact absurd h (by simp)
  · exact absurd h (by simp)

theorem fetch_lookup_not_mem {K : Type} (A : AEAD K) (pek : K)
    (tl : List (String × Option (List SecretVersion))) (k : String)
    (hk : ∀ p ∈ tl, p.1 ≠ k) :
    lookupField (fetchAndDecrypt A pek (some tl)) k = none := by
  induction tl with
  | nil => rfl
  | cons e tl ih =>
    have he : e.1 ≠ k := hk e (List.mem_cons_self e tl)
    have hk' : ∀ p ∈ tl, p.1 ≠ k := fun p hp => hk p (List.mem_cons_of_mem e hp)
    show lookupField ((e :: tl).filterMap (decryptEntry A pek)) k = none
    rw [List.filterMap_cons]
    rcases hf : decryptEntry A pek e with _ | b
    · simp only [hf]
      exact ih hk'
    · simp only [hf]
      rw [lookupField_cons_ne _ _ _ (by rw [decryptEntry_key A pek e b hf]; exact he)]
      exact ih hk'

/-- C9: the bulk fetch handles every key independently - for any fetched
environment (with its distinct field names), a key appears in the
returned map exactly when its own history is a non-empty array whose
head decrypts, in which case it maps to that decrypted value; a key
whose entry fails contributes nothing, and no entry's failure affects
any other key (and the fetch itself always returns a map, never an
error). -/
theorem fetchAndDecrypt_isolates_failures {K : Type} (A : AEAD K) (pek : K)
    (entries : List (String × Option (List SecretVersion)))
    (hnd : (entries.map Prod.fst).Nodup) (k : String) :
    lookupField (fetchAndDecrypt A pek (some entries)) k =
      (match lookupField entries k with
       | some (some (v :: _)) => (decrypt A v.value pek).toOption
       | _ => none) := by
  induction entries with
  | nil => rfl
  | cons e tl ih =>
    have hnd2 : e.1 ∉ tl.map Prod.fst ∧ (tl.map Prod.fst).Nodup :=
      List.nodup_cons.mp (by simpa using hnd)
    by_cases he : e.1 = k
    · have hnotin : ∀ p ∈ tl, p.1 ≠ k := by
        intro p hp hc
        exact hnd2.1 (he ▸ hc ▸ List.mem_map_of_mem Prod.fst hp)
      rw [lookupField_cons_self e tl k he]
      show lookupField ((e :: tl).filterMap (decryptEntry A pek)) k = _
      rw [List.filterMap_cons]
      rcases e2 : e.2 with _ | hist
      · have hf : decryptEntry A pek e = none := by unfold decryptEntry; rw [e2]
        simp only [hf, e2]
        exact fetch_lookup_not_mem A pek tl k hnotin
      · rcases hist with _ | ⟨v, rest⟩
        · have hf : decryptEntry A pek e = none := by unfold decryptEntry; rw [e2]
          simp only [hf, e2]
          exact fetch_lookup_not_mem A pek tl k hnotin
        · rcases hd : decrypt A v.value pek with err | m
          · have hf : decryptEntry A pek e = none := by
              unfold decryptEntry; rw [e2]; simp [hd]
            simp only [hf, e2, hd]
            simp only [Except.toOption]
            exact fetch_lookup_not_mem A pek tl k hnotin
          · have hf : decryptEntry A pek e = some (e.1, m) := by
              unfold decryptEntry; rw [e2]; simp [hd]
            simp only [hf, e2, hd]
            rw [lookupField_cons_self (e.1, m) _ k he]
            simp [Except.toOption]
    · rw [lookupField_cons_ne e tl k he]
      show lookupField ((e :: tl).filterMap (decryptEntry A pek)) k = _
      rw [List.filterMap_cons]
      rcases hf : decryptEntry A pek e with _ | b
      · simp only [hf]
        exact ih hnd2.2
      · simp only [hf]
        rw [lookupField_cons_ne _ _ _ (by rw [decryptEntry_key A pek e b hf]; exact he)]
        exact ih hnd2.2

/-- Environment with one decryptable and one corrupted entry, used to
evaluate C9. -/
def entriesExample : List (String × Option (List SecretVersion)) :=
  [("GOOD", some [⟨1, encrypt toyAEAD [1] [42] 7, "u", "t"⟩]),
   ("BAD", some [⟨1, ['z'], "u", "t"⟩])]

/-- Concrete evaluation of C9: the corrupted entry is omitted while the
good entry's decrypted value is still returned. -/
theorem fetchAndDecrypt_isolates_failures_witness :
    lookupField (fetchAndDecrypt toyAEAD 7 (some entriesExample)) "GOOD" = some [42]
    ∧ lookupField (fetchAndDecrypt toyAEAD 7 (some entriesExample)) "BAD" = none :=
  ⟨(fetchAndDecrypt_isolates_failures toyAEAD 7 entriesExample (by decide) "GOOD").trans
      (by decide),
   (fetchAndDecrypt_isolates_failures toyAEAD 7 entriesExample (by decide) "BAD").trans
      (by decide)⟩

end Redenv
